import Mathlib

/-!
# Verification of the bootloader/sketch firmware-image merge engine

Shallow embedding of `legacy/builder/merge_sketch_with_bootloader.go`
(`MergeSketchWithBootloader.Run` and `merge`) together with a model of the
`gohex` Intel-HEX memory type it drives (`NewMemory`, `ParseIntelHex`,
`AddBinary`, `DumpIntelHex`, `ToBinary`).  The `gohex` library is not part of
the sources under verification, so its operations are modelled from the
specification (each such definition is marked `Modelled from the spec:`);
the `merge` driver itself (address tracking, error propagation, the size
guard, the output paths) is translated directly from the Go source.

Bytes are `Nat` values `< 256`, addresses are `Nat` values; wherever the Go
code computes on `uint32`, the model reduces modulo `2^32` explicitly.
-/

namespace HexMerge

/-- A contiguous run of payload bytes at a base address (gohex `DataSegment`:
`Address : uint32`, `Data : []byte`). -/
structure Segment where
  addr : Nat
  data : List Nat
deriving DecidableEq

/-- Modelled from the spec: the gohex `Memory` sparse image — an ordered
collection of segments (§3 Image).  Segments are kept in insertion order;
on overlap the later-inserted segment's bytes take precedence (§4.2). -/
abbrev Image := List Segment

/-- Byte lookup in an image: the most recently inserted segment covering the
address wins (§4.2 insertion policy: the later-inserted segment's bytes win
for an overlapping region). -/
def readByte : Image → Nat → Option Nat
  | [], _ => none
  | s :: rest, a =>
    match readByte rest a with
    | some b => some b
    | none =>
      if s.addr ≤ a ∧ a < s.addr + s.data.length then s.data[a - s.addr]? else none

/-- Modelled from the spec: gohex `Memory.AddBinary` — inserts one segment
into the image; insertion is rejected for a structural reason (zero-length
payload, §4.2) and otherwise the segment is recorded after all previously
inserted ones, so its bytes win on any overlap. -/
def addBinary (img : Image) (addr : Nat) (data : List Nat) : Option Image :=
  if data.isEmpty then none else some (img ++ [⟨addr, data⟩])

/-- Modelled from the spec: gohex `Memory.ToBinary address size fill` — a
dense byte sequence of length `size`; every position covered by a segment
holds that segment's byte, every other position holds the fill byte (§4.2
`toBinary`). -/
def toBinary (img : Image) (address size fill : Nat) : List Nat :=
  (List.range size).map fun i => (readByte img (address + i)).getD fill

/-! ## Intel-HEX records

A record is modelled at the level of its decoded byte list
(`count, addrHi, addrLo, type, payload…, checksum`), abstracting only the
ASCII hexadecimal characters of the textual format. -/

/-- Abstract Intel-HEX record kinds supported by the codec (§4.1): data
records, extended linear address records and the end-of-file record. -/
inductive HexRec where
  | dat (off : Nat) (bytes : List Nat)
  | ela (high : Nat)
  | eof
deriving DecidableEq

/-- Parse failures of the codec (§4.1 / §7 `FormatError`). -/
inductive FormatError where
  | badDigit
  | badLength
  | badChecksum
  | unsupportedType
  | truncated
  | pageOverflow
deriving DecidableEq

/-- Intel-HEX checksum byte: two's complement of the sum of all preceding
record bytes. -/
def checksumOf (l : List Nat) : Nat := (256 - l.sum % 256) % 256

/-- Modelled from the spec: rendering of one record into its byte list, as
emitted by gohex `DumpIntelHex` (§4.1 `serialize`). -/
def rawOf : HexRec → List Nat
  | .dat off bytes =>
    let body := bytes.length :: off / 256 :: off % 256 :: 0 :: bytes
    body ++ [checksumOf body]
  | .ela high =>
    let body := [2, 0, 0, 4, high / 256, high % 256]
    body ++ [checksumOf body]
  | .eof => [0, 0, 0, 1, 255]

/-- Modelled from the spec: decoding and validation of one record byte list
(gohex `ParseIntelHex` record handling, §4.1): a record fails with
`FormatError` when a byte is not a byte (a non-hex digit in the text),
when the length field disagrees with the payload (truncated record), when
the checksum does not balance, or when the record type is unsupported. -/
def parseRecord (raw : List Nat) : Except FormatError HexRec :=
  if ∀ b ∈ raw, b < 256 then
    match raw with
    | cnt :: aH :: aL :: ty :: rest =>
      if rest.length ≠ cnt + 1 then .error .badLength
      else if (cnt + aH + aL + ty + rest.sum) % 256 ≠ 0 then .error .badChecksum
      else if ty = 0 then .ok (.dat (aH * 256 + aL) (rest.take cnt))
      else if ty = 1 then .ok .eof
      else if ty = 4 then
        if cnt = 2 then .ok (.ela (rest.headI * 256 + rest.tail.headI))
        else .error .badLength
      else .error .unsupportedType
    | _ => .error .truncated
  else .error .badDigit

/-- Core accumulation step of the parser: add the payload found at absolute
address `abs`, extending the segment currently being built when the data is
contiguous with it and otherwise finishing that segment and starting a new
one (§3: an Image is a set of contiguous byte ranges; §9: contiguous records
coalesce into one segment). -/
def addData (segs : List Segment) (cur : Option Segment) (abs : Nat)
    (bytes : List Nat) : List Segment × Option Segment :=
  match cur with
  | none => (segs, some ⟨abs, bytes⟩)
  | some c =>
    if c.addr + c.data.length = abs then (segs, some ⟨c.addr, c.data ++ bytes⟩)
    else (c :: segs, some ⟨abs, bytes⟩)

/-- Parser state: finished segments (in reverse order), the segment being
built, and the extended linear address accumulator (§9: per-parse local
state). -/
structure PState where
  segs : List Segment
  cur : Option Segment
  high : Nat
deriving DecidableEq

/-- Final image of a parse: the finished segments together with the segment
still being built, in discovery order. -/
def pushOut (segs : List Segment) (cur : Option Segment) : Image :=
  match cur with
  | none => segs.reverse
  | some c => (c :: segs).reverse

/-- Modelled from the spec: the effect of one non-terminal record on the
parser state (§4.1): data records add payload at
`high * 2^16 + offset` (rejecting a record that would overflow its 64-KiB
page, since `baseAddress` is an unsigned 32-bit quantity, §3), extended
linear address records replace the `high` accumulator. -/
def stepRec (st : PState) (r : HexRec) : Except FormatError PState :=
  match r with
  | .ela h => .ok ⟨st.segs, st.cur, h⟩
  | .eof => .ok st
  | .dat off bytes =>
    if bytes.isEmpty then .ok st
    else if 65536 < off + bytes.length then .error .pageOverflow
    else
      let p := addData st.segs st.cur (st.high * 65536 + off) bytes
      .ok ⟨p.1, p.2, st.high⟩

/-- Record-stream driver of the parser: processes records until the
end-of-file record, failing if the stream ends without one (§4.1: truncated
byte stream). -/
def runRecs (st : PState) : List (List Nat) → Except FormatError Image
  | [] => .error .truncated
  | raw :: rest =>
    match parseRecord raw with
    | .error e => .error e
    | .ok .eof => .ok (pushOut st.segs st.cur)
    | .ok r =>
      match stepRec st r with
      | .error e => .error e
      | .ok st2 => runRecs st2 rest

/-- Modelled from the spec: gohex `ParseIntelHex` — parses a list of decoded
record byte lists into an Image, with the extended-address accumulator reset
for each new parse (§4.1, §9). -/
def parseHex (raws : List (List Nat)) : Except FormatError Image :=
  runRecs ⟨[], none, 0⟩ raws

/-- Fuel-indexed splitting of one segment's payload into data-record chunks
of at most `n` bytes that never cross a 64-KiB page boundary. -/
def chunkAux : Nat → Nat → List Nat → Nat → List (Nat × List Nat)
  | 0, _, _, _ => []
  | fuel + 1, pos, data, n =>
    let k := min (min n data.length) (65536 - pos % 65536)
    if k = 0 then []
    else (pos, data.take k) :: chunkAux fuel (pos + k) (data.drop k) n

/-- Chunks of one segment, each tagged with its absolute start address. -/
def chunkSeg (s : Segment) (n : Nat) : List (Nat × List Nat) :=
  chunkAux s.data.length s.addr s.data n

/-- Chunks of a whole image, segment by segment in image order. -/
def chunksOf (img : Image) (n : Nat) : List (Nat × List Nat) :=
  (img.map fun s => chunkSeg s n).flatten

/-- Rendering of a chunk list into records, inserting an extended linear
address record whenever the running 64-KiB page changes and terminating with
the end-of-file record (§4.1 `serialize`). -/
def renderChunks (h : Nat) : List (Nat × List Nat) → List HexRec
  | [] => [HexRec.eof]
  | (a, d) :: cs =>
    if a / 65536 = h then HexRec.dat (a % 65536) d :: renderChunks h cs
    else HexRec.ela (a / 65536) :: HexRec.dat (a % 65536) d :: renderChunks (a / 65536) cs

/-- Modelled from the spec: gohex `DumpIntelHex` — serializes an image as a
list of record byte lists, emitting data records of at most `n` payload
bytes (§4.1 `serialize(image, bytesPerRecord)`). -/
def serializeHex (img : Image) (n : Nat) : List (List Nat) :=
  (renderChunks 0 (chunksOf img n)).map rawOf

/-- Segment-accumulation step over one chunk (the data-record part of
`stepRec`, with the absolute address already resolved). -/
def csStep (p : List Segment × Option Segment) (ad : Nat × List Nat) :
    List Segment × Option Segment :=
  addData p.1 p.2 ad.1 ad.2

/-- Folding the segment accumulation over a chunk list. -/
def csFold (p : List Segment × Option Segment) (cs : List (Nat × List Nat)) :
    List Segment × Option Segment :=
  cs.foldl csStep p

/-- Finish the current segment into the accumulated (reversed) list. -/
def flushCur (cur : Option Segment) (segs : List Segment) : List Segment :=
  match cur with
  | none => segs
  | some c => c :: segs

/-- A chunk the serializer may emit: non-empty, at most 255 payload bytes of
genuine byte values, inside one 64-KiB page, at a 32-bit address. -/
def goodChunk (ad : Nat × List Nat) : Prop :=
  ad.2 ≠ [] ∧ ad.2.length ≤ 255 ∧ (∀ b ∈ ad.2, b < 256) ∧
    ad.1 % 65536 + ad.2.length ≤ 65536 ∧ ad.1 < 2 ^ 32

/-- Fuel-indexed merging of adjacent end-to-start touching segments (what a
re-parse of a serialized image does to segments that touch). -/
def coalesceAux : Nat → Image → Image
  | 0, l => l
  | _ + 1, [] => []
  | _ + 1, [s] => [s]
  | fuel + 1, s :: t :: rest =>
    if s.addr + s.data.length = t.addr then
      coalesceAux fuel (⟨s.addr, s.data ++ t.data⟩ :: rest)
    else s :: coalesceAux fuel (t :: rest)

/-- Merge all adjacent touching segments of an image. -/
def coalesce (img : Image) : Image := coalesceAux img.length img

/-! ## The merge engine (`merge` in the Go source) -/

/-- Running state of the merge loops: the merged image plus the
`initial_address` / `last_address` trackers of `merge`. -/
structure MergeState where
  img : Image
  ia : Nat
  la : Nat
deriving DecidableEq

/-- One iteration of the merge loops of `merge`: try `AddBinary`; on failure
`continue` (the segment is skipped), on success lower `initial_address` to
the segment base when smaller and raise `last_address` to
`segment.Address + uint32(len(segment.Data))` (computed in `uint32`, hence
the reduction modulo `2^32`) when larger. -/
def insertSeg (st : MergeState) (s : Segment) : MergeState :=
  match addBinary st.img s.addr s.data with
  | none => st
  | some img2 =>
    let ia2 := if s.addr < st.ia then s.addr else st.ia
    let w := (s.addr + s.data.length) % 2 ^ 32
    let la2 := if st.la < w then w else st.la
    ⟨img2, ia2, la2⟩

/-- The two `for … GetDataSegments()` loops of `merge`, folded over a list of
segments. -/
def insertAll (st : MergeState) (segs : List Segment) : MergeState :=
  segs.foldl insertSeg st

/-- Go conversion `uint32(n)` applied to a (possibly negative) `int`:
two's-complement reduction modulo `2^32`. -/
def u32ofInt (i : Int) : Nat := (i % (2 ^ 32 : Int)).toNat

/-- Observable outcome of one `merge` call: the returned error, the contents
left at the merged-HEX output path and at the binary output path, plus the
internal merged image, `initial_address`, `last_address` and computed size
(exposed for specification purposes). -/
structure MergeOutput where
  err : Option String
  hexOut : Option (List (List Nat))
  binOut : Option (List Nat)
  img : Image
  ia : Nat
  la : Nat
  size : Nat
deriving DecidableEq

/-- Error text of a parse failure (the gohex error message is modelled by a
fixed string per failure kind). -/
def errString : FormatError → String
  | .badDigit => "invalid hex digit"
  | .badLength => "invalid record length"
  | .badChecksum => "invalid checksum"
  | .unsupportedType => "unsupported record type"
  | .truncated => "truncated input"
  | .pageOverflow => "record crosses page boundary"

/-- Contents left at the merged-HEX output path: the full serialization on
success, its first `k` records when the dump fails after `k` records. -/
def takeFail (f : Option Nat) (full : List (List Nat)) : List (List Nat) :=
  match f with
  | none => full
  | some k => full.take k

/-- The merge-loop state over both images, starting from the fresh image and
the initial `initial_address = math.MaxUint32`, `last_address = 0`. -/
def mergeSt (memBoot memSketch : Image) : MergeState :=
  insertAll (insertAll ⟨[], 2 ^ 32 - 1, 0⟩ memBoot) memSketch

/-- Body of `merge` once both input files have parsed: fold both segment
lists into a fresh image while tracking `initial_address` (from `2^32 - 1`
down) and `last_address` (from `0` up), create the merged-HEX file at the
output path and dump the image into it with 16 bytes per record (a
serialization failure after `k` records — `dumpFail = some k` — leaves
exactly the first `k` records at that path, and is ignored by the code),
compute `size = last_address - initial_address` in `uint32` arithmetic and
compare it against `uint32(maximumBinSize)`: when `size` is larger return
success with no binary output, otherwise write
`ToBinary(initial_address, size, 0xFF)` to the binary output path. -/
def mergeCore (memBoot memSketch : Image) (maximumBinSize : Int)
    (dumpFail : Option Nat) : MergeOutput :=
  let st := mergeSt memBoot memSketch
  let hexWritten := takeFail dumpFail (serializeHex st.img 16)
  let size := (st.la + 2 ^ 32 - st.ia) % 2 ^ 32
  if u32ofInt maximumBinSize < size then
    ⟨none, some hexWritten, none, st.img, st.ia, st.la, size⟩
  else
    ⟨none, some hexWritten, some (toBinary st.img st.ia size 255), st.img, st.ia, st.la, size⟩

/-- The `merge` function of the Go source: parse the bootloader file (on
failure return a wrapped error naming that file), parse the sketch file (on
failure return a wrapped error naming that file), then run the merge body
`mergeCore` on the two parsed images. -/
def mergeModel (bootName sketchName : String) (bootRaw sketchRaw : List (List Nat))
    (maximumBinSize : Int) (dumpFail : Option Nat) : MergeOutput :=
  match parseHex bootRaw with
  | .error e => ⟨some (bootName ++ " " ++ errString e), none, none, [], 2 ^ 32 - 1, 0, 0⟩
  | .ok memBoot =>
    match parseHex sketchRaw with
    | .error e => ⟨some (sketchName ++ " " ++ errString e), none, none, [], 2 ^ 32 - 1, 0, 0⟩
    | .ok memSketch => mergeCore memBoot memSketch maximumBinSize dumpFail

/-! ## Output paths (`Run` and `merge` in the Go source)

Paths are modelled as component lists; `paths.Path.Join` appends
components, `Base` is the last component, `Parent` drops it. -/

/-- `paths.Path.Join`: append path components. -/
def joinPath (p : List String) (parts : List String) : List String := p ++ parts

/-- `paths.Path.Base`: the last path component. -/
def basePath (p : List String) : String := p.getLast?.getD ""

/-- `paths.Path.Parent`: drop the last path component. -/
def parentPath (p : List String) : List String := p.dropLast

/-- Line 414 of the source:
`mergedSketchPath := builtSketchPath.Parent().Join(sketchFileName + ".with_bootloader.hex")`. -/
def mergedSketchPathOf (builtSketchPath : List String) (sketchFileName : String) : List String :=
  joinPath (parentPath builtSketchPath) [sketchFileName ++ ".with_bootloader.hex"]

/-- Line 497 of the source:
`mergedSketchPathBin := mergedSketchPath.Join(mergedSketchPath.Base(), ".bin")`. -/
def mergedBinPathOf (mergedSketchPath : List String) : List String :=
  joinPath mergedSketchPath [basePath mergedSketchPath, ".bin"]

/-! ## Well-formedness of parsed images -/

/-- A structurally sound segment: non-empty payload of genuine bytes lying
inside the 32-bit address space (§3 data-model invariants). -/
def goodSeg (s : Segment) : Prop :=
  s.data ≠ [] ∧ s.addr + s.data.length ≤ 2 ^ 32 ∧ ∀ b ∈ s.data, b < 256

/-- Every segment of the image is structurally sound. -/
def goodImg (img : Image) : Prop := ∀ s ∈ img, goodSeg s

/-- Consecutive segments of the image never touch end-to-start: the parser
only ends a segment when the next record is not contiguous with it. -/
def sepImg (img : Image) : Prop :=
  List.Chain' (fun s t => s.addr + s.data.length ≠ t.addr) img

/-- The filter deciding whether `AddBinary` accepts a segment. -/
def keepSeg (s : Segment) : Bool := !s.data.isEmpty

/-! ## Lemmas about the merge loops -/

theorem insertSeg_skip (st : MergeState) (s : Segment) (h : s.data = []) :
    insertSeg st s = st := by
  simp [insertSeg, addBinary, h]

theorem insertSeg_add (st : MergeState) (s : Segment) (h : s.data ≠ []) :
    insertSeg st s =
      ⟨st.img ++ [s], if s.addr < st.ia then s.addr else st.ia,
        if st.la < (s.addr + s.data.length) % 2 ^ 32
          then (s.addr + s.data.length) % 2 ^ 32 else st.la⟩ := by
  simp [insertSeg, addBinary, h]

theorem insertAll_cons (st : MergeState) (s : Segment) (rest : List Segment) :
    insertAll st (s :: rest) = insertAll (insertSeg st s) rest := rfl

theorem insertAll_append (st : MergeState) (l1 l2 : List Segment) :
    insertAll st (l1 ++ l2) = insertAll (insertAll st l1) l2 := by
  simp [insertAll]

theorem insertAll_filter (st : MergeState) (segs : List Segment) :
    insertAll st (segs.filter keepSeg) = insertAll st segs := by
  induction segs generalizing st with
  | nil => rfl
  | cons s rest ih =>
    by_cases h : s.data = []
    · rw [insertAll_cons, insertSeg_skip st s h]
      have hk : keepSeg s = false := by simp [keepSeg, h]
      rw [List.filter_cons, hk]
      simpa using ih st
    · have hk : keepSeg s = true := by simp [keepSeg, h]
      rw [List.filter_cons, hk]
      simpa [insertAll_cons] using ih (insertSeg st s)

theorem insertAll_img (st : MergeState) (segs : List Segment) :
    (insertAll st segs).img = st.img ++ segs.filter keepSeg := by
  induction segs generalizing st with
  | nil => simp [insertAll]
  | cons s rest ih =>
    rw [insertAll_cons]
    by_cases h : s.data = []
    · have hk : keepSeg s = false := by simp [keepSeg, h]
      rw [insertSeg_skip st s h, ih, List.filter_cons, hk]
      simp
    · have hk : keepSeg s = true := by simp [keepSeg, h]
      rw [insertSeg_add st s h, ih, List.filter_cons, hk]
      simp

theorem insertAll_ia_spec (segs : List Segment) : ∀ st : MergeState,
    ((insertAll st segs).ia = st.ia ∨
      ∃ s ∈ segs.filter keepSeg, (insertAll st segs).ia = s.addr)
    ∧ (insertAll st segs).ia ≤ st.ia
    ∧ ∀ s ∈ segs.filter keepSeg, (insertAll st segs).ia ≤ s.addr := by
  induction segs with
  | nil => exact fun st => ⟨Or.inl rfl, le_refl _, by simp⟩
  | cons s rest ih =>
    intro st
    rw [insertAll_cons]
    by_cases h : s.data = []
    · have hk : keepSeg s = false := by simp [keepSeg, h]
      rw [insertSeg_skip st s h, List.filter_cons, hk]
      exact ih st
    · have hk : keepSeg s = true := by simp [keepSeg, h]
      obtain ⟨h1, h2, h3⟩ := ih (insertSeg st s)
      have hia : (insertSeg st s).ia = if s.addr < st.ia then s.addr else st.ia := by
        rw [insertSeg_add st s h]
      rw [List.filter_cons, hk]
      refine ⟨?_, ?_, ?_⟩
      · rcases h1 with h1 | ⟨t, ht, hres⟩
        · rw [hia] at h1
          split at h1
          · exact Or.inr ⟨s, List.mem_cons_self _ _, h1⟩
          · exact Or.inl h1
        · exact Or.inr ⟨t, List.mem_cons_of_mem _ ht, hres⟩
      · rw [hia] at h2
        split at h2 <;> omega
      · intro t ht
        rcases List.mem_cons.mp ht with rfl | ht2
        · rw [hia] at h2; split at h2 <;> omega
        · exact h3 t ht2

theorem insertAll_la_spec (segs : List Segment) : ∀ st : MergeState,
    ((insertAll st segs).la = st.la ∨
      ∃ s ∈ segs.filter keepSeg, (insertAll st segs).la = (s.addr + s.data.length) % 2 ^ 32)
    ∧ st.la ≤ (insertAll st segs).la
    ∧ ∀ s ∈ segs.filter keepSeg, (s.addr + s.data.length) % 2 ^ 32 ≤ (insertAll st segs).la := by
  induction segs with
  | nil => exact fun st => ⟨Or.inl rfl, le_refl _, by simp⟩
  | cons s rest ih =>
    intro st
    rw [insertAll_cons]
    by_cases h : s.data = []
    · have hk : keepSeg s = false := by simp [keepSeg, h]
      rw [insertSeg_skip st s h, List.filter_cons, hk]
      exact ih st
    · have hk : keepSeg s = true := by simp [keepSeg, h]
      obtain ⟨h1, h2, h3⟩ := ih (insertSeg st s)
      have hla : (insertSeg st s).la =
          if st.la < (s.addr + s.data.length) % 2 ^ 32
            then (s.addr + s.data.length) % 2 ^ 32 else st.la := by
        rw [insertSeg_add st s h]
      rw [List.filter_cons, hk]
      refine ⟨?_, ?_, ?_⟩
      · rcases h1 with h1 | ⟨t, ht, hres⟩
        · rw [hla] at h1
          split at h1
          · exact Or.inr ⟨s, List.mem_cons_self _ _, h1⟩
          · exact Or.inl h1
        · exact Or.inr ⟨t, List.mem_cons_of_mem _ ht, hres⟩
      · rw [hla] at h2
        split at h2 <;> omega
      · intro t ht
        rcases List.mem_cons.mp ht with rfl | ht2
        · rw [hla] at h2; split at h2 <;> omega
        · exact h3 t ht2

theorem insertAll_ia_lt (segs : List Segment) (st : MergeState) (h : st.ia < 2 ^ 32) :
    (insertAll st segs).ia < 2 ^ 32 :=
  lt_of_le_of_lt (insertAll_ia_spec segs st).2.1 h

theorem insertAll_la_lt (segs : List Segment) (st : MergeState) (h : st.la < 2 ^ 32) :
    (insertAll st segs).la < 2 ^ 32 := by
  rcases (insertAll_la_spec segs st).1 with h1 | ⟨s, _, h1⟩
  · omega
  · rw [h1]; exact Nat.mod_lt _ (by norm_num)

/-! ## Lemmas about image byte lookup -/

theorem readByte_append_some (l1 l2 : Image) (a b : Nat)
    (h : readByte l2 a = some b) : readByte (l1 ++ l2) a = some b := by
  induction l1 with
  | nil => simpa using h
  | cons s t ih =>
    rw [List.cons_append, readByte, ih]

theorem readByte_isSome_of_mem (l : Image) (s : Segment) (a : Nat)
    (hs : s ∈ l) (h1 : s.addr ≤ a) (h2 : a < s.addr + s.data.length) :
    ∃ b, readByte l a = some b := by
  induction l with
  | nil => cases hs
  | cons t rest ih =>
    rcases List.mem_cons.mp hs with rfl | hmem
    · cases hr : readByte rest a with
      | some b => exact ⟨b, by rw [readByte, hr]⟩
      | none =>
        have hlt : a - s.addr < s.data.length := by omega
        refine ⟨s.data[a - s.addr], ?_⟩
        rw [readByte, hr, if_pos ⟨h1, h2⟩, List.getElem?_eq_getElem hlt]
    · obtain ⟨b, hb⟩ := ih hmem
      exact ⟨b, by rw [readByte, hb]⟩

theorem readByte_none_of_uncovered (l : Image) (a : Nat)
    (h : ∀ s ∈ l, ¬(s.addr ≤ a ∧ a < s.addr + s.data.length)) :
    readByte l a = none := by
  induction l with
  | nil => rfl
  | cons s rest ih =>
    rw [readByte, ih fun t ht => h t (List.mem_cons_of_mem _ ht),
      if_neg (h s (List.mem_cons_self _ _))]

/-! ## Well-formedness of parser output -/

theorem pushOut_eq (segs : List Segment) (cur : Option Segment) :
    pushOut segs cur = (cur.toList ++ segs).reverse := by
  cases cur <;> rfl

theorem parseRecord_ranges (raw : List Nat) (r : HexRec)
    (h : parseRecord raw = .ok r) :
    (∀ off bytes, r = HexRec.dat off bytes → off < 65536 ∧ ∀ b ∈ bytes, b < 256) ∧
    ∀ hi, r = HexRec.ela hi → hi < 65536 := by
  unfold parseRecord at h
  split at h
  case isFalse => cases h
  case isTrue hall =>
    split at h
    case h_2 => cases h
    case h_1 cnt aH aL ty rest =>
      have haH : aH < 256 := hall aH (by simp)
      have haL : aL < 256 := hall aL (by simp)
      have hrest : ∀ b ∈ rest, b < 256 := fun b hb => hall b (by simp [hb])
      by_cases hlen : rest.length ≠ cnt + 1
      · rw [if_pos hlen] at h; cases h
      · rw [if_neg hlen] at h
        by_cases hck : (cnt + aH + aL + ty + rest.sum) % 256 ≠ 0
        · rw [if_pos hck] at h; cases h
        · rw [if_neg hck] at h
          by_cases hty0 : ty = 0
          · rw [if_pos hty0] at h
            rw [Except.ok.injEq] at h
            subst h
            refine ⟨?_, by simp⟩
            intro off bytes hdat
            rw [HexRec.dat.injEq] at hdat
            obtain ⟨h1, h2⟩ := hdat
            constructor
            · omega
            · intro b hb
              exact hrest b (List.mem_of_mem_take (h2 ▸ hb))
          · rw [if_neg hty0] at h
            by_cases hty1 : ty = 1
            · rw [if_pos hty1] at h
              rw [Except.ok.injEq] at h
              subst h
              exact ⟨by simp, by simp⟩
            · rw [if_neg hty1] at h
              by_cases hty4 : ty = 4
              · rw [if_pos hty4] at h
                by_cases hcnt : cnt = 2
                · rw [if_pos hcnt] at h
                  rw [Except.ok.injEq] at h
                  subst h
                  refine ⟨by simp, ?_⟩
                  intro hi hela
                  rw [HexRec.ela.injEq] at hela
                  have hlen3 : rest.length = 3 := by omega
                  cases rest with
                  | nil => simp at hlen3
                  | cons a t =>
                    cases t with
                    | nil => simp at hlen3
                    | cons b t2 =>
                      have ha : a < 256 := hrest a (by simp)
                      have hb : b < 256 := hrest b (by simp)
                      simp only [List.headI, List.tail_cons] at hela
                      omega
                · rw [if_neg hcnt] at h; cases h
              · rw [if_neg hty4] at h; cases h

/-! ### Step lemmas for the record-stream driver -/

theorem stepRec_ela (st : PState) (hi : Nat) :
    stepRec st (HexRec.ela hi) = .ok ⟨st.segs, st.cur, hi⟩ := rfl

theorem stepRec_dat_empty (st : PState) (off : Nat) (bytes : List Nat)
    (hemp : bytes = []) : stepRec st (HexRec.dat off bytes) = .ok st := by
  subst hemp; rfl

theorem stepRec_dat_page (st : PState) (off : Nat) (bytes : List Nat)
    (hbne : bytes ≠ []) (hpage : 65536 < off + bytes.length) :
    stepRec st (HexRec.dat off bytes) = .error .pageOverflow := by
  simp only [stepRec]
  rw [if_neg (by simp [hbne]), if_pos hpage]

theorem stepRec_dat (st : PState) (off : Nat) (bytes : List Nat)
    (hbne : bytes ≠ []) (hpage : off + bytes.length ≤ 65536) :
    stepRec st (HexRec.dat off bytes) =
      .ok ⟨(addData st.segs st.cur (st.high * 65536 + off) bytes).1,
        (addData st.segs st.cur (st.high * 65536 + off) bytes).2, st.high⟩ := by
  simp only [stepRec]
  rw [if_neg (by simp [hbne]), if_neg (by omega)]

theorem runRecs_cons_err (st : PState) (raw : List Nat) (rest : List (List Nat))
    (e : FormatError) (hp : parseRecord raw = .error e) :
    runRecs st (raw :: rest) = .error e := by
  simp only [runRecs, hp]

theorem runRecs_cons_eof (st : PState) (raw : List Nat) (rest : List (List Nat))
    (hp : parseRecord raw = .ok .eof) :
    runRecs st (raw :: rest) = .ok (pushOut st.segs st.cur) := by
  simp only [runRecs, hp]

theorem runRecs_cons_ela (st : PState) (raw : List Nat) (rest : List (List Nat))
    (hi : Nat) (hp : parseRecord raw = .ok (.ela hi)) :
    runRecs st (raw :: rest) = runRecs ⟨st.segs, st.cur, hi⟩ rest := by
  simp only [runRecs, hp, stepRec_ela]

theorem runRecs_cons_dat_empty (st : PState) (raw : List Nat) (rest : List (List Nat))
    (off : Nat) (bytes : List Nat) (hp : parseRecord raw = .ok (.dat off bytes))
    (hemp : bytes = []) : runRecs st (raw :: rest) = runRecs st rest := by
  simp only [runRecs, hp, stepRec_dat_empty st off bytes hemp]

theorem runRecs_cons_dat_page (st : PState) (raw : List Nat) (rest : List (List Nat))
    (off : Nat) (bytes : List Nat) (hp : parseRecord raw = .ok (.dat off bytes))
    (hbne : bytes ≠ []) (hpage : 65536 < off + bytes.length) :
    runRecs st (raw :: rest) = .error .pageOverflow := by
  simp only [runRecs, hp, stepRec_dat_page st off bytes hbne hpage]

theorem runRecs_cons_dat (st : PState) (raw : List Nat) (rest : List (List Nat))
    (off : Nat) (bytes : List Nat) (hp : parseRecord raw = .ok (.dat off bytes))
    (hbne : bytes ≠ []) (hpage : off + bytes.length ≤ 65536) :
    runRecs st (raw :: rest) =
      runRecs ⟨(addData st.segs st.cur (st.high * 65536 + off) bytes).1,
        (addData st.segs st.cur (st.high * 65536 + off) bytes).2, st.high⟩ rest := by
  simp only [runRecs, hp, stepRec_dat st off bytes hbne hpage]

/-- The parser-state invariant: finished segments and the segment being
built are structurally sound, the extended-address accumulator is a 16-bit
quantity, the current segment exists once anything has been read, and no
segment in the (reversed) accumulation touches the start of the segment
finished just before it. -/
def invState (st : PState) : Prop :=
  (∀ s ∈ st.segs, goodSeg s) ∧ (∀ c, st.cur = some c → goodSeg c) ∧
    st.high < 65536 ∧ (st.cur = none → st.segs = []) ∧
    List.Chain' (fun a b => b.addr + b.data.length ≠ a.addr) (st.cur.toList ++ st.segs)

theorem addData_none (segs : List Segment) (abs : Nat) (bytes : List Nat) :
    addData segs none abs bytes = (segs, some ⟨abs, bytes⟩) := rfl

theorem addData_extend (segs : List Segment) (c : Segment) (abs : Nat) (bytes : List Nat)
    (hext : c.addr + c.data.length = abs) :
    addData segs (some c) abs bytes = (segs, some ⟨c.addr, c.data ++ bytes⟩) := by
  rw [addData, if_pos hext]

theorem addData_push (segs : List Segment) (c : Segment) (abs : Nat) (bytes : List Nat)
    (hext : c.addr + c.data.length ≠ abs) :
    addData segs (some c) abs bytes = (c :: segs, some ⟨abs, bytes⟩) := by
  rw [addData, if_neg hext]

theorem runRecs_wf (raws : List (List Nat)) : ∀ st : PState, invState st →
    ∀ img, runRecs st raws = .ok img → goodImg img ∧ sepImg img := by
  induction raws with
  | nil => intro st _ img h; cases h
  | cons raw rest ih =>
    intro st hst img h
    obtain ⟨hsegs, hcur, hhigh, hnone, hchain⟩ := hst
    cases hp : parseRecord raw with
    | error e => rw [runRecs_cons_err st raw rest e hp] at h; cases h
    | ok r =>
      obtain ⟨hdat, hela⟩ := parseRecord_ranges raw r hp
      cases r with
      | eof =>
        rw [runRecs_cons_eof st raw rest hp, Except.ok.injEq] at h
        subst h
        rw [pushOut_eq]
        constructor
        · intro s hs
          rw [List.mem_reverse] at hs
          rcases List.mem_append.mp hs with hs | hs
          · cases hcv : st.cur with
            | none => rw [hcv] at hs; cases hs
            | some c =>
              rw [hcv] at hs
              rw [List.mem_singleton.mp hs]
              exact hcur c hcv
          · exact hsegs s hs
        · rw [sepImg, List.chain'_reverse]
          exact hchain
      | ela hi =>
        rw [runRecs_cons_ela st raw rest hi hp] at h
        exact ih ⟨st.segs, st.cur, hi⟩
          ⟨hsegs, hcur, hela hi rfl, hnone, hchain⟩ img h
      | dat off bytes =>
        obtain ⟨hoff, hbytes⟩ := hdat off bytes rfl
        by_cases hemp : bytes = []
        · rw [runRecs_cons_dat_empty st raw rest off bytes hp hemp] at h
          exact ih st ⟨hsegs, hcur, hhigh, hnone, hchain⟩ img h
        · by_cases hpage : 65536 < off + bytes.length
          · rw [runRecs_cons_dat_page st raw rest off bytes hp hemp hpage] at h
            cases h
          · rw [runRecs_cons_dat st raw rest off bytes hp hemp (by omega)] at h
            have habs : st.high * 65536 + off + bytes.length ≤ 2 ^ 32 := by
              have h1 : st.high ≤ 65535 := by omega
              have h2 : off + bytes.length ≤ 65536 := by omega
              nlinarith
            cases hcv : st.cur with
            | none =>
              have hsegs0 : st.segs = [] := hnone hcv
              rw [hcv, addData_none] at h
              dsimp only at h
              refine ih ⟨st.segs, some ⟨st.high * 65536 + off, bytes⟩, st.high⟩
                ⟨hsegs, ?_, hhigh, by simp, ?_⟩ img h
              · intro c hc
                have hx : (⟨st.high * 65536 + off, bytes⟩ : Segment) = c := by injection hc
                subst hx
                exact ⟨hemp, habs, hbytes⟩
              · rw [hsegs0]
                simp
            | some c =>
              have hcg : goodSeg c := hcur c hcv
              rw [hcv] at h hchain
              by_cases hext : c.addr + c.data.length = st.high * 65536 + off
              · rw [addData_extend st.segs c _ bytes hext] at h
                dsimp only at h
                refine ih ⟨st.segs, some ⟨c.addr, c.data ++ bytes⟩, st.high⟩
                  ⟨hsegs, ?_, hhigh, by simp, ?_⟩ img h
                · intro c2 hc2
                  have hx : (⟨c.addr, c.data ++ bytes⟩ : Segment) = c2 := by injection hc2
                  subst hx
                  refine ⟨by simp [hcg.1], ?_, ?_⟩
                  · simp only [List.length_append]
                    omega
                  · intro b hb
                    rcases List.mem_append.mp hb with hb | hb
                    · exact hcg.2.2 b hb
                    · exact hbytes b hb
                · simp only [Option.toList_some, List.singleton_append] at hchain ⊢
                  cases hsg : st.segs with
                  | nil => simp
                  | cons s1 s2 =>
                    rw [hsg] at hchain
                    rw [List.chain'_cons] at hchain ⊢
                    exact ⟨hchain.1, hchain.2⟩
              · rw [addData_push st.segs c _ bytes hext] at h
                dsimp only at h
                refine ih ⟨c :: st.segs, some ⟨st.high * 65536 + off, bytes⟩, st.high⟩
                  ⟨?_, ?_, hhigh, by simp, ?_⟩ img h
                · intro s hs
                  rcases List.mem_cons.mp hs with rfl | hs
                  · exact hcg
                  · exact hsegs s hs
                · intro c2 hc2
                  have hx : (⟨st.high * 65536 + off, bytes⟩ : Segment) = c2 := by injection hc2
                  subst hx
                  exact ⟨hemp, habs, hbytes⟩
                · simp only [Option.toList_some, List.singleton_append] at hchain ⊢
                  rw [List.chain'_cons]
                  exact ⟨hext, hchain⟩

theorem parseHex_wf (raws : List (List Nat)) (img : Image)
    (h : parseHex raws = .ok img) : goodImg img ∧ sepImg img := by
  refine runRecs_wf raws ⟨[], none, 0⟩ ?_ img h
  exact ⟨by simp, by simp, by norm_num, fun _ => rfl, by simp⟩

/-! ## Reduction lemmas for the merge model -/

theorem mergeModel_ok (bn sn : String) (braw sraw : List (List Nat)) (m : Int)
    (f : Option Nat) (B S : Image)
    (hB : parseHex braw = .ok B) (hS : parseHex sraw = .ok S) :
    mergeModel bn sn braw sraw m f = mergeCore B S m f := by
  unfold mergeModel
  rw [hB, hS]

theorem mergeModel_errBoot (bn sn : String) (braw sraw : List (List Nat)) (m : Int)
    (f : Option Nat) (e : FormatError) (hB : parseHex braw = .error e) :
    mergeModel bn sn braw sraw m f =
      ⟨some (bn ++ " " ++ errString e), none, none, [], 2 ^ 32 - 1, 0, 0⟩ := by
  unfold mergeModel
  rw [hB]

theorem mergeModel_errSketch (bn sn : String) (braw sraw : List (List Nat)) (m : Int)
    (f : Option Nat) (B : Image) (e : FormatError)
    (hB : parseHex braw = .ok B) (hS : parseHex sraw = .error e) :
    mergeModel bn sn braw sraw m f =
      ⟨some (sn ++ " " ++ errString e), none, none, [], 2 ^ 32 - 1, 0, 0⟩ := by
  unfold mergeModel
  rw [hB, hS]

theorem mergeCore_err (B S : Image) (m : Int) (f : Option Nat) :
    (mergeCore B S m f).err = none := by
  simp only [mergeCore]
  split <;> rfl

theorem mergeCore_img (B S : Image) (m : Int) (f : Option Nat) :
    (mergeCore B S m f).img = (mergeSt B S).img := by
  simp only [mergeCore]
  split <;> rfl

theorem mergeCore_ia (B S : Image) (m : Int) (f : Option Nat) :
    (mergeCore B S m f).ia = (mergeSt B S).ia := by
  simp only [mergeCore]
  split <;> rfl

theorem mergeCore_la (B S : Image) (m : Int) (f : Option Nat) :
    (mergeCore B S m f).la = (mergeSt B S).la := by
  simp only [mergeCore]
  split <;> rfl

theorem mergeCore_size (B S : Image) (m : Int) (f : Option Nat) :
    (mergeCore B S m f).size = ((mergeSt B S).la + 2 ^ 32 - (mergeSt B S).ia) % 2 ^ 32 := by
  simp only [mergeCore]
  split <;> rfl

theorem mergeCore_hexOut (B S : Image) (m : Int) (f : Option Nat) :
    (mergeCore B S m f).hexOut = some (takeFail f (serializeHex (mergeSt B S).img 16)) := by
  simp only [mergeCore]
  split <;> rfl

theorem mergeCore_binOut_none (B S : Image) (m : Int) (f : Option Nat)
    (h : u32ofInt m < ((mergeSt B S).la + 2 ^ 32 - (mergeSt B S).ia) % 2 ^ 32) :
    (mergeCore B S m f).binOut = none := by
  simp only [mergeCore]
  rw [if_pos h]

theorem mergeCore_binOut_some (B S : Image) (m : Int) (f : Option Nat)
    (h : ((mergeSt B S).la + 2 ^ 32 - (mergeSt B S).ia) % 2 ^ 32 ≤ u32ofInt m) :
    (mergeCore B S m f).binOut =
      some (toBinary (mergeSt B S).img (mergeSt B S).ia
        (((mergeSt B S).la + 2 ^ 32 - (mergeSt B S).ia) % 2 ^ 32) 255) := by
  simp only [mergeCore]
  rw [if_neg (by omega)]

theorem mergeSt_img (B S : Image) :
    (mergeSt B S).img = B.filter keepSeg ++ S.filter keepSeg := by
  rw [mergeSt, insertAll_img, insertAll_img]
  simp

theorem mergeSt_eq_insertAll (B S : Image) :
    mergeSt B S = insertAll ⟨[], 2 ^ 32 - 1, 0⟩ (B ++ S) := by
  rw [mergeSt, insertAll_append]

theorem goodSeg_addr_le (s : Segment) (h : goodSeg s) : s.addr + 1 ≤ 2 ^ 32 := by
  have h1 := h.2.1
  have h2 : 0 < s.data.length := List.length_pos.mpr h.1
  omega

theorem filter_keepSeg_good (B S : Image) (braw sraw : List (List Nat))
    (hB : parseHex braw = .ok B) (hS : parseHex sraw = .ok S) :
    ∀ s ∈ (B ++ S).filter keepSeg, goodSeg s := by
  intro s hs
  have hmem := List.mem_of_mem_filter hs
  rcases List.mem_append.mp hmem with h | h
  · exact (parseHex_wf braw B hB).1 s h
  · exact (parseHex_wf sraw S hS).1 s h

/-! ## Record-level round trip: `parseRecord` inverts `rawOf` -/

theorem parseRecord_cons (cnt aH aL ty : Nat) (rest : List Nat)
    (hall : ∀ b ∈ cnt :: aH :: aL :: ty :: rest, b < 256) :
    parseRecord (cnt :: aH :: aL :: ty :: rest) =
      (if rest.length ≠ cnt + 1 then .error .badLength
      else if (cnt + aH + aL + ty + rest.sum) % 256 ≠ 0 then .error .badChecksum
      else if ty = 0 then .ok (.dat (aH * 256 + aL) (rest.take cnt))
      else if ty = 1 then .ok .eof
      else if ty = 4 then
        if cnt = 2 then .ok (.ela (rest.headI * 256 + rest.tail.headI))
        else .error .badLength
      else .error .unsupportedType) := by
  rw [parseRecord, if_pos hall]

theorem checksumOf_lt (l : List Nat) : checksumOf l < 256 := by
  unfold checksumOf
  omega

theorem parseRecord_rawOf_eof : parseRecord (rawOf HexRec.eof) = .ok HexRec.eof := by
  rfl

theorem parseRecord_rawOf_ela (h : Nat) (hh : h < 65536) :
    parseRecord (rawOf (HexRec.ela h)) = .ok (HexRec.ela h) := by
  have hck := checksumOf_lt [2, 0, 0, 4, h / 256, h % 256]
  have hform : rawOf (HexRec.ela h) =
      2 :: 0 :: 0 :: 4 ::
        [h / 256, h % 256, checksumOf [2, 0, 0, 4, h / 256, h % 256]] := by
    simp [rawOf]
  rw [hform, parseRecord_cons]
  · rw [if_neg (by simp)]
    rw [if_neg (by simp only [List.sum_cons, List.sum_nil, checksumOf]; omega)]
    rw [if_neg (by norm_num), if_neg (by norm_num), if_pos rfl, if_pos rfl]
    show Except.ok (HexRec.ela (h / 256 * 256 + h % 256)) = Except.ok (HexRec.ela h)
    have hdm : h / 256 * 256 + h % 256 = h := by omega
    rw [hdm]
  · intro b hb
    simp only [List.mem_cons, List.not_mem_nil, or_false] at hb
    have h1 : h / 256 < 256 := by omega
    have h2 : h % 256 < 256 := by omega
    rcases hb with rfl | rfl | rfl | rfl | rfl | rfl | rfl <;> omega

theorem parseRecord_rawOf_dat (off : Nat) (bytes : List Nat) (hoff : off < 65536)
    (hlen : bytes.length ≤ 255) (hb : ∀ b ∈ bytes, b < 256) :
    parseRecord (rawOf (HexRec.dat off bytes)) = .ok (HexRec.dat off bytes) := by
  have hck := checksumOf_lt (bytes.length :: off / 256 :: off % 256 :: 0 :: bytes)
  have hform : rawOf (HexRec.dat off bytes) =
      bytes.length :: off / 256 :: off % 256 :: 0 ::
        (bytes ++ [checksumOf (bytes.length :: off / 256 :: off % 256 :: 0 :: bytes)]) := by
    simp [rawOf]
  rw [hform, parseRecord_cons]
  · rw [if_neg (by simp)]
    rw [if_neg (by
      simp only [List.sum_append, List.sum_cons, List.sum_nil, checksumOf]
      omega)]
    rw [if_pos rfl]
    rw [show (bytes ++
        [checksumOf (bytes.length :: off / 256 :: off % 256 :: 0 :: bytes)]).take
          bytes.length = bytes from by
      rw [List.take_left]]
    have hdm : off / 256 * 256 + off % 256 = off := by omega
    rw [hdm]
  · intro b hbm
    simp only [List.mem_cons, List.mem_append, List.not_mem_nil, or_false] at hbm
    have h1 : off / 256 < 256 := by omega
    have h2 : off % 256 < 256 := by omega
    rcases hbm with rfl | rfl | rfl | rfl | hbm
    · omega
    · omega
    · omega
    · omega
    · rcases hbm with hbm | rfl
      · exact hb b hbm
      · omega

/-! ## Coalescing preserves reads and fixes separated images -/

theorem readByte_cons_congr (s : Segment) (l1 l2 : Image) (a : Nat)
    (h : readByte l1 a = readByte l2 a) :
    readByte (s :: l1) a = readByte (s :: l2) a := by
  rw [readByte, readByte, h]

theorem readByte_merge (s t : Segment) (rest : Image)
    (h : s.addr + s.data.length = t.addr) (a : Nat) :
    readByte (⟨s.addr, s.data ++ t.data⟩ :: rest) a = readByte (s :: t :: rest) a := by
  rw [readByte]
  rw [show readByte (s :: t :: rest) a =
    (match readByte (t :: rest) a with
      | some b => some b
      | none =>
        if s.addr ≤ a ∧ a < s.addr + s.data.length then s.data[a - s.addr]? else none)
    from by rw [readByte]]
  rw [show readByte (t :: rest) a =
    (match readByte rest a with
      | some b => some b
      | none =>
        if t.addr ≤ a ∧ a < t.addr + t.data.length then t.data[a - t.addr]? else none)
    from by rw [readByte]]
  dsimp only
  cases hr : readByte rest a with
  | some b => rfl
  | none =>
    by_cases h2 : t.addr ≤ a ∧ a < t.addr + t.data.length
    · rw [if_pos h2]
      have hlt : a - t.addr < t.data.length := by omega
      rw [List.getElem?_eq_getElem hlt]
      have hc : s.addr ≤ a ∧ a < s.addr + (s.data ++ t.data).length := by
        simp only [List.length_append]
        omega
      rw [if_pos hc]
      have hge : s.data.length ≤ a - s.addr := by omega
      rw [List.getElem?_append_right hge]
      have hidx : a - s.addr - s.data.length = a - t.addr := by omega
      rw [hidx, List.getElem?_eq_getElem hlt]
    · rw [if_neg h2]
      by_cases h3 : s.addr ≤ a ∧ a < s.addr + s.data.length
      · rw [if_pos h3]
        have hc : s.addr ≤ a ∧ a < s.addr + (s.data ++ t.data).length := by
          simp only [List.length_append]
          omega
        rw [if_pos hc]
        have hlt : a - s.addr < s.data.length := by omega
        rw [List.getElem?_append, if_pos hlt]
      · rw [if_neg h3]
        have hc : ¬(s.addr ≤ a ∧ a < s.addr + (s.data ++ t.data).length) := by
          simp only [List.length_append]
          omega
        rw [if_neg hc]

theorem coalesce_cons_merge (s t : Segment) (rest : Image)
    (h : s.addr + s.data.length = t.addr) :
    coalesce (s :: t :: rest) = coalesce (⟨s.addr, s.data ++ t.data⟩ :: rest) := by
  simp only [coalesce, List.length_cons, coalesceAux]
  rw [if_pos h]

theorem coalesce_cons_skip (s t : Segment) (rest : Image)
    (h : s.addr + s.data.length ≠ t.addr) :
    coalesce (s :: t :: rest) = s :: coalesce (t :: rest) := by
  simp only [coalesce, List.length_cons, coalesceAux]
  rw [if_neg h]

theorem readByte_coalesceAux (m : Nat) : ∀ (l : Image) (a : Nat),
    readByte (coalesceAux m l) a = readByte l a := by
  induction m with
  | zero => intro l a; rfl
  | succ m ih =>
    intro l a
    match l with
    | [] => rfl
    | [s] => rfl
    | s :: t :: rest =>
      rw [coalesceAux]
      by_cases h : s.addr + s.data.length = t.addr
      · rw [if_pos h, ih, readByte_merge s t rest h a]
      · rw [if_neg h]
        exact readByte_cons_congr s _ _ a (ih (t :: rest) a)

theorem readByte_coalesce (l : Image) (a : Nat) :
    readByte (coalesce l) a = readByte l a :=
  readByte_coalesceAux l.length l a

theorem coalesceAux_sep (m : Nat) : ∀ l : Image, sepImg l → coalesceAux m l = l := by
  induction m with
  | zero => intro l _; rfl
  | succ m ih =>
    intro l hsep
    match l with
    | [] => rfl
    | [s] => rfl
    | s :: t :: rest =>
      rw [coalesceAux]
      rw [sepImg, List.chain'_cons] at hsep
      rw [if_neg hsep.1, ih (t :: rest) hsep.2]

theorem coalesce_sep (l : Image) (hsep : sepImg l) : coalesce l = l :=
  coalesceAux_sep l.length l hsep

/-! ## The serializer's chunks are well formed -/

theorem chunkAux_good (fuel : Nat) : ∀ (pos : Nat) (data : List Nat) (n : Nat),
    n ≤ 255 → (∀ b ∈ data, b < 256) → pos + data.length ≤ 2 ^ 32 →
    ∀ ad ∈ chunkAux fuel pos data n, goodChunk ad := by
  induction fuel with
  | zero =>
    intro pos data n _ _ _ ad had
    simp [chunkAux] at had
  | succ fuel ih =>
    intro pos data n hn hb hle ad had
    simp only [chunkAux] at had
    by_cases hk0 : min (min n data.length) (65536 - pos % 65536) = 0
    · rw [if_pos hk0] at had
      simp at had
    · rw [if_neg hk0] at had
      have hmod : pos % 65536 < 65536 := Nat.mod_lt _ (by norm_num)
      have hk1 : 1 ≤ min (min n data.length) (65536 - pos % 65536) := by omega
      have hkd : min (min n data.length) (65536 - pos % 65536) ≤ data.length := by omega
      have hkn : min (min n data.length) (65536 - pos % 65536) ≤ n := by omega
      have hkp : min (min n data.length) (65536 - pos % 65536) ≤ 65536 - pos % 65536 := by
        omega
      rcases List.mem_cons.mp had with rfl | had2
      · have htk : (data.take (min (min n data.length) (65536 - pos % 65536))).length =
            min (min n data.length) (65536 - pos % 65536) := by
          rw [List.length_take]
          omega
        dsimp only [goodChunk]
        refine ⟨?_, ?_, ?_, ?_, ?_⟩
        · intro he
          rw [he] at htk
          simp only [List.length_nil] at htk
          omega
        · rw [htk]
          omega
        · intro b hbm
          exact hb b (List.mem_of_mem_take hbm)
        · rw [htk]
          omega
        · omega
      · refine ih (pos + min (min n data.length) (65536 - pos % 65536))
          (data.drop (min (min n data.length) (65536 - pos % 65536))) n hn
          (fun b hbm => hb b (List.mem_of_mem_drop hbm)) ?_ ad had2
        rw [List.length_drop]
        omega

theorem chunksOf_good (img : Image) (n : Nat) (hn : n ≤ 255) (hg : goodImg img) :
    ∀ ad ∈ chunksOf img n, goodChunk ad := by
  intro ad had
  rw [chunksOf, List.mem_flatten] at had
  obtain ⟨l, hl, hadl⟩ := had
  rw [List.mem_map] at hl
  obtain ⟨s, hs, rfl⟩ := hl
  have hgs := hg s hs
  rw [chunkSeg] at hadl
  exact chunkAux_good s.data.length s.addr s.data n hn hgs.2.2 hgs.2.1 ad hadl

/-! ## Chunk consumption rebuilds the segments -/

theorem csFold_chunkAux_extend (fuel : Nat) : ∀ (data : List Nat) (pos n : Nat)
    (acc : List Segment) (a0 : Nat) (d0 : List Nat),
    data.length ≤ fuel → 1 ≤ n → a0 + d0.length = pos →
    csFold (acc, some ⟨a0, d0⟩) (chunkAux fuel pos data n) =
      (acc, some ⟨a0, d0 ++ data⟩) := by
  induction fuel with
  | zero =>
    intro data pos n acc a0 d0 hf _ _
    have hd : data = [] := List.length_eq_zero.mp (by omega)
    subst hd
    simp [chunkAux, csFold]
  | succ fuel ih =>
    intro data pos n acc a0 d0 hf hn hpos
    simp only [chunkAux]
    have hmod : pos % 65536 < 65536 := Nat.mod_lt _ (by norm_num)
    by_cases hk0 : min (min n data.length) (65536 - pos % 65536) = 0
    · rw [if_pos hk0]
      have hd : data = [] := List.length_eq_zero.mp (by omega)
      subst hd
      simp [csFold]
    · rw [if_neg hk0]
      have hk1 : 1 ≤ min (min n data.length) (65536 - pos % 65536) := by omega
      have hkd : min (min n data.length) (65536 - pos % 65536) ≤ data.length := by omega
      rw [show csFold (acc, some ⟨a0, d0⟩)
          ((pos, data.take (min (min n data.length) (65536 - pos % 65536))) ::
            chunkAux fuel (pos + min (min n data.length) (65536 - pos % 65536))
              (data.drop (min (min n data.length) (65536 - pos % 65536))) n) =
        csFold (addData acc (some ⟨a0, d0⟩) pos
            (data.take (min (min n data.length) (65536 - pos % 65536))))
          (chunkAux fuel (pos + min (min n data.length) (65536 - pos % 65536))
            (data.drop (min (min n data.length) (65536 - pos % 65536))) n) from rfl]
      rw [addData_extend acc _ pos _ hpos]
      rw [ih (data.drop (min (min n data.length) (65536 - pos % 65536)))
        (pos + min (min n data.length) (65536 - pos % 65536)) n acc a0
        (d0 ++ data.take (min (min n data.length) (65536 - pos % 65536)))
        (by rw [List.length_drop]; omega) hn
        (by rw [List.length_append, List.length_take]; omega)]
      rw [List.append_assoc, List.take_append_drop]

theorem csFold_chunkAux_start (fuel : Nat) (data : List Nat) (pos n : Nat)
    (acc : List Segment) (cur : Option Segment)
    (hf : data.length ≤ fuel) (hne : data ≠ []) (hn : 1 ≤ n)
    (hcompat : ∀ c, cur = some c → c.addr + c.data.length ≠ pos) :
    csFold (acc, cur) (chunkAux fuel pos data n) =
      (flushCur cur acc, some ⟨pos, data⟩) := by
  cases fuel with
  | zero =>
    exfalso
    have := List.length_pos.mpr hne
    omega
  | succ fuel =>
    simp only [chunkAux]
    have hmod : pos % 65536 < 65536 := Nat.mod_lt _ (by norm_num)
    have hlen1 : 1 ≤ data.length := List.length_pos.mpr hne
    have hk1 : 1 ≤ min (min n data.length) (65536 - pos % 65536) := by omega
    have hkd : min (min n data.length) (65536 - pos % 65536) ≤ data.length := by omega
    rw [if_neg (by omega)]
    cases cur with
    | none =>
      rw [show csFold (acc, (none : Option Segment))
          ((pos, data.take (min (min n data.length) (65536 - pos % 65536))) ::
            chunkAux fuel (pos + min (min n data.length) (65536 - pos % 65536))
              (data.drop (min (min n data.length) (65536 - pos % 65536))) n) =
        csFold (addData acc none pos
            (data.take (min (min n data.length) (65536 - pos % 65536))))
          (chunkAux fuel (pos + min (min n data.length) (65536 - pos % 65536))
            (data.drop (min (min n data.length) (65536 - pos % 65536))) n) from rfl]
      rw [addData_none]
      rw [csFold_chunkAux_extend fuel
        (data.drop (min (min n data.length) (65536 - pos % 65536)))
        (pos + min (min n data.length) (65536 - pos % 65536)) n acc pos
        (data.take (min (min n data.length) (65536 - pos % 65536)))
        (by rw [List.length_drop]; omega) hn
        (by rw [List.length_take]; omega)]
      rw [List.take_append_drop]
      rfl
    | some c =>
      rw [show csFold (acc, some c)
          ((pos, data.take (min (min n data.length) (65536 - pos % 65536))) ::
            chunkAux fuel (pos + min (min n data.length) (65536 - pos % 65536))
              (data.drop (min (min n data.length) (65536 - pos % 65536))) n) =
        csFold (addData acc (some c) pos
            (data.take (min (min n data.length) (65536 - pos % 65536))))
          (chunkAux fuel (pos + min (min n data.length) (65536 - pos % 65536))
            (data.drop (min (min n data.length) (65536 - pos % 65536))) n) from rfl]
      rw [addData_push acc c pos _ (hcompat c rfl)]
      rw [csFold_chunkAux_extend fuel
        (data.drop (min (min n data.length) (65536 - pos % 65536)))
        (pos + min (min n data.length) (65536 - pos % 65536)) n (c :: acc) pos
        (data.take (min (min n data.length) (65536 - pos % 65536)))
        (by rw [List.length_drop]; omega) hn
        (by rw [List.length_take]; omega)]
      rw [List.take_append_drop]
      rfl

theorem pushOut_flush (segs : List Segment) (cur : Option Segment) :
    pushOut segs cur = (flushCur cur segs).reverse := by
  cases cur <;> rfl

theorem csFold_chunksOf : ∀ (img : Image),
    (∀ s ∈ img, s.data ≠ []) → ∀ n : Nat, 1 ≤ n →
    ∀ (acc : List Segment) (cur : Option Segment),
    pushOut (csFold (acc, cur) (chunksOf img n)).1
        (csFold (acc, cur) (chunksOf img n)).2 =
      acc.reverse ++ coalesce (cur.toList ++ img) := by
  intro img
  induction img with
  | nil =>
    intro _ n _ acc cur
    rw [show chunksOf [] n = [] from rfl]
    rw [show csFold (acc, cur) [] = (acc, cur) from rfl]
    rw [pushOut_flush]
    cases cur with
    | none => simp [flushCur, coalesce, coalesceAux]
    | some c => simp [flushCur, coalesce, coalesceAux]
  | cons s rest ih =>
    intro hne n hn acc cur
    have hsne : s.data ≠ [] := hne s (List.mem_cons_self _ _)
    have hrne : ∀ t ∈ rest, t.data ≠ [] := fun t ht => hne t (List.mem_cons_of_mem _ ht)
    have hsplit : chunksOf (s :: rest) n = chunkSeg s n ++ chunksOf rest n := by
      rw [chunksOf, chunksOf, List.map_cons, List.flatten_cons]
    rw [hsplit]
    rw [show csFold (acc, cur) (chunkSeg s n ++ chunksOf rest n) =
      csFold (csFold (acc, cur) (chunkSeg s n)) (chunksOf rest n) from
        List.foldl_append _ _ _ _]
    cases cur with
    | none =>
      rw [chunkSeg, csFold_chunkAux_start s.data.length s.data s.addr n acc none
        (le_refl _) hsne hn (by intro c hc; cases hc)]
      rw [show (⟨s.addr, s.data⟩ : Segment) = s from rfl]
      rw [show flushCur none acc = acc from rfl]
      rw [ih hrne n hn acc (some s)]
      rfl
    | some c =>
      by_cases hext : c.addr + c.data.length = s.addr
      · rw [chunkSeg, csFold_chunkAux_extend s.data.length s.data s.addr n acc c.addr
          c.data (le_refl _) hn hext]
        rw [ih hrne n hn acc (some ⟨c.addr, c.data ++ s.data⟩)]
        rw [show (some c).toList ++ s :: rest = c :: s :: rest from rfl]
        rw [show (some (⟨c.addr, c.data ++ s.data⟩ : Segment)).toList ++ rest =
          (⟨c.addr, c.data ++ s.data⟩ : Segment) :: rest from rfl]
        rw [coalesce_cons_merge c s rest hext]
      · rw [chunkSeg, csFold_chunkAux_start s.data.length s.data s.addr n acc (some c)
          (le_refl _) hsne hn ?_]
        · rw [show (⟨s.addr, s.data⟩ : Segment) = s from rfl]
          rw [show flushCur (some c) acc = c :: acc from rfl]
          rw [ih hrne n hn (c :: acc) (some s)]
          rw [show (some c).toList ++ s :: rest = c :: s :: rest from rfl]
          rw [show (some s).toList ++ rest = s :: rest from rfl]
          rw [coalesce_cons_skip c s rest hext]
          simp
        · intro c2 hc2
          rw [Option.some.injEq] at hc2
          subst hc2
          exact hext

/-! ## The parser inverts the serializer -/

theorem runRecs_render (cs : List (Nat × List Nat)) :
    ∀ (segs : List Segment) (cur : Option Segment) (hi : Nat),
    (∀ ad ∈ cs, goodChunk ad) →
    runRecs ⟨segs, cur, hi⟩ ((renderChunks hi cs).map rawOf) =
      .ok (pushOut (csFold (segs, cur) cs).1 (csFold (segs, cur) cs).2) := by
  induction cs with
  | nil =>
    intro segs cur hi _
    rw [show renderChunks hi [] = [HexRec.eof] from rfl, List.map_cons, List.map_nil]
    rw [runRecs_cons_eof _ _ _ parseRecord_rawOf_eof]
    rfl
  | cons ad cs ih =>
    obtain ⟨a, d⟩ := ad
    intro segs cur hi hg
    obtain ⟨hne, hlen, hlt, hpage, ha32⟩ := hg (a, d) (List.mem_cons_self _ _)
    have hgcs : ∀ x ∈ cs, goodChunk x := fun x hx => hg x (List.mem_cons_of_mem _ hx)
    have hmod : a % 65536 < 65536 := Nat.mod_lt _ (by norm_num)
    have hdiv : a / 65536 < 65536 := by omega
    by_cases hh : a / 65536 = hi
    · rw [show renderChunks hi ((a, d) :: cs) =
        HexRec.dat (a % 65536) d :: renderChunks hi cs from by
          rw [renderChunks, if_pos hh]]
      rw [List.map_cons]
      rw [runRecs_cons_dat ⟨segs, cur, hi⟩ _ _ (a % 65536) d
        (parseRecord_rawOf_dat (a % 65536) d hmod hlen hlt) hne hpage]
      dsimp only
      have habs : hi * 65536 + a % 65536 = a := by omega
      rw [habs]
      rw [show csFold (segs, cur) ((a, d) :: cs) =
        csFold (addData segs cur a d) cs from rfl]
      exact ih (addData segs cur a d).1 (addData segs cur a d).2 hi hgcs
    · rw [show renderChunks hi ((a, d) :: cs) =
        HexRec.ela (a / 65536) :: HexRec.dat (a % 65536) d ::
          renderChunks (a / 65536) cs from by
          rw [renderChunks, if_neg hh]]
      rw [List.map_cons, List.map_cons]
      rw [runRecs_cons_ela _ _ _ (a / 65536) (parseRecord_rawOf_ela (a / 65536) hdiv)]
      dsimp only
      rw [runRecs_cons_dat ⟨segs, cur, a / 65536⟩ _ _ (a % 65536) d
        (parseRecord_rawOf_dat (a % 65536) d hmod hlen hlt) hne hpage]
      dsimp only
      have habs : a / 65536 * 65536 + a % 65536 = a := by omega
      rw [habs]
      rw [show csFold (segs, cur) ((a, d) :: cs) =
        csFold (addData segs cur a d) cs from rfl]
      exact ih (addData segs cur a d).1 (addData segs cur a d).2 (a / 65536) hgcs

theorem reparse_serialize (img : Image) (n : Nat) (hn1 : 1 ≤ n) (hn2 : n ≤ 255)
    (hg : goodImg img) :
    parseHex (serializeHex img n) = .ok (coalesce img) := by
  rw [serializeHex, parseHex]
  rw [runRecs_render (chunksOf img n) [] none 0 (chunksOf_good img n hn2 hg)]
  rw [csFold_chunksOf img (fun s hs => (hg s hs).1) n hn1 [] none]
  rfl

theorem toBinary_length (img : Image) (a n fill : Nat) :
    (toBinary img a n fill).length = n := by
  simp [toBinary]

theorem toBinary_getElem (img : Image) (a n fill i : Nat) (hi : i < n) :
    (toBinary img a n fill)[i]? = some ((readByte img (a + i)).getD fill) := by
  rw [toBinary, List.getElem?_map, List.getElem?_range hi]
  rfl

theorem mergeSt_ia_le (B S : Image) : (mergeSt B S).ia ≤ 2 ^ 32 - 1 := by
  have h1 := (insertAll_ia_spec S (insertAll ⟨[], 2 ^ 32 - 1, 0⟩ B)).2.1
  have h2 := (insertAll_ia_spec B (⟨[], 2 ^ 32 - 1, 0⟩ : MergeState)).2.1
  have e : (⟨[], 2 ^ 32 - 1, 0⟩ : MergeState).ia = 2 ^ 32 - 1 := rfl
  rw [e] at h2
  rw [mergeSt]
  omega

theorem mergeSt_la_lt (B S : Image) : (mergeSt B S).la < 2 ^ 32 := by
  rw [mergeSt]
  exact insertAll_la_lt _ _ (insertAll_la_lt _ _ (by norm_num))

/-! ## Claim theorems -/

/-- C1: for every pair of parsed images with a bootloader segment and a
program segment overlapping at an address `a`, the merged image's byte at
`a` equals the byte of the program image inserted alone (the later-inserted
program segments win the overlap), and in particular is present — it is
never taken from the bootloader, whose segments do not influence the value. -/
theorem claim_C1 (bn sn : String) (braw sraw : List (List Nat)) (m : Int)
    (f : Option Nat) (B S : Image) (sb sp : Segment) (a : Nat)
    (hB : parseHex braw = .ok B) (hS : parseHex sraw = .ok S)
    (hsb : sb ∈ B) (hsp : sp ∈ S)
    (hb1 : sb.addr ≤ a) (hb2 : a < sb.addr + sb.data.length)
    (hp1 : sp.addr ≤ a) (hp2 : a < sp.addr + sp.data.length) :
    readByte (mergeModel bn sn braw sraw m f).img a =
      readByte (insertAll ⟨[], 2 ^ 32 - 1, 0⟩ S).img a ∧
    ∃ b, readByte (mergeModel bn sn braw sraw m f).img a = some b := by
  rw [mergeModel_ok bn sn braw sraw m f B S hB hS, mergeCore_img, mergeSt_img]
  have himgS : (insertAll ⟨[], 2 ^ 32 - 1, 0⟩ S).img = S.filter keepSeg := by
    rw [insertAll_img]
    rfl
  have hk : keepSeg sp = true := by
    have : sp.data ≠ [] := by
      intro he
      rw [he] at hp2
      simp at hp2
      omega
    simp [keepSeg, this]
  have hspf : sp ∈ S.filter keepSeg := List.mem_filter.mpr ⟨hsp, hk⟩
  obtain ⟨b, hb⟩ := readByte_isSome_of_mem (S.filter keepSeg) sp a hspf hp1 hp2
  rw [himgS]
  constructor
  · rw [readByte_append_some _ _ a b hb, hb]
  · exact ⟨b, readByte_append_some _ _ a b hb⟩

theorem claim_C1_witness :
    parseHex [rawOf (HexRec.dat 0 [1, 2, 3, 4]), rawOf HexRec.eof] =
      Except.ok [⟨0, [1, 2, 3, 4]⟩] ∧
    parseHex [rawOf (HexRec.dat 2 [9, 9]), rawOf HexRec.eof] = Except.ok [⟨2, [9, 9]⟩] ∧
    readByte (mergeModel "b" "s" [rawOf (HexRec.dat 0 [1, 2, 3, 4]), rawOf HexRec.eof]
        [rawOf (HexRec.dat 2 [9, 9]), rawOf HexRec.eof] 16000000 none).img 2 =
      readByte (insertAll ⟨[], 2 ^ 32 - 1, 0⟩ [⟨2, [9, 9]⟩]).img 2 ∧
    readByte (mergeModel "b" "s" [rawOf (HexRec.dat 0 [1, 2, 3, 4]), rawOf HexRec.eof]
        [rawOf (HexRec.dat 2 [9, 9]), rawOf HexRec.eof] 16000000 none).img 2 = some 9 := by
  have h1 : parseHex [rawOf (HexRec.dat 0 [1, 2, 3, 4]), rawOf HexRec.eof] =
      Except.ok [⟨0, [1, 2, 3, 4]⟩] := by rfl
  have h2 : parseHex [rawOf (HexRec.dat 2 [9, 9]), rawOf HexRec.eof] =
      Except.ok [⟨2, [9, 9]⟩] := by rfl
  have h3 := claim_C1 "b" "s" _ _ 16000000 none _ _ ⟨0, [1, 2, 3, 4]⟩ ⟨2, [9, 9]⟩ 2
    h1 h2 (by simp) (by simp) (by norm_num) (by norm_num) (by norm_num) (by norm_num)
  exact ⟨h1, h2, h3.1, by rfl⟩

/-- C2 (amended): `occupiedRange.start` is the minimum base address over the
successfully inserted segments; `occupiedRange.end` is the maximum over the
same segments of `(baseAddress + length) % 2^32` — the sum is computed in
`uint32`, so a segment ending exactly at `2^32` contributes `0`, not `2^32`
(the only point where this differs from the unreduced maximum of the
original claim). -/
theorem claim_C2 (bn sn : String) (braw sraw : List (List Nat)) (m : Int)
    (f : Option Nat) (B S : Image)
    (hB : parseHex braw = .ok B) (hS : parseHex sraw = .ok S)
    (hne : (B ++ S).filter keepSeg ≠ []) :
    ((∃ s ∈ (B ++ S).filter keepSeg,
        (mergeModel bn sn braw sraw m f).ia = s.addr) ∧
      ∀ s ∈ (B ++ S).filter keepSeg,
        (mergeModel bn sn braw sraw m f).ia ≤ s.addr) ∧
    ((∃ s ∈ (B ++ S).filter keepSeg,
        (mergeModel bn sn braw sraw m f).la = (s.addr + s.data.length) % 2 ^ 32) ∧
      ∀ s ∈ (B ++ S).filter keepSeg,
        (s.addr + s.data.length) % 2 ^ 32 ≤ (mergeModel bn sn braw sraw m f).la) := by
  rw [mergeModel_ok bn sn braw sraw m f B S hB hS, mergeCore_ia, mergeCore_la,
    mergeSt_eq_insertAll]
  obtain ⟨s0, hs0⟩ := List.exists_mem_of_ne_nil _ hne
  have hgood := filter_keepSeg_good B S braw sraw hB hS
  obtain ⟨hia1, hia2, hia3⟩ := insertAll_ia_spec (B ++ S) ⟨[], 2 ^ 32 - 1, 0⟩
  obtain ⟨hla1, hla2, hla3⟩ := insertAll_la_spec (B ++ S) ⟨[], 2 ^ 32 - 1, 0⟩
  have e1 : (⟨[], 2 ^ 32 - 1, 0⟩ : MergeState).ia = 2 ^ 32 - 1 := rfl
  have e2 : (⟨[], 2 ^ 32 - 1, 0⟩ : MergeState).la = 0 := rfl
  rw [e1] at hia1 hia2
  rw [e2] at hla1 hla2
  refine ⟨⟨?_, hia3⟩, ?_, hla3⟩
  · rcases hia1 with h1 | h1
    · refine ⟨s0, hs0, ?_⟩
      have hb := goodSeg_addr_le s0 (hgood s0 hs0)
      have hle := hia3 s0 hs0
      omega
    · exact h1
  · rcases hla1 with h1 | h1
    · refine ⟨s0, hs0, ?_⟩
      have hle := hla3 s0 hs0
      omega
    · exact h1

theorem claim_C2_cex :
    parseHex [rawOf HexRec.eof] = Except.ok [] ∧
    parseHex [rawOf (HexRec.ela 65535), rawOf (HexRec.dat 65520 (List.replicate 16 171)),
        rawOf HexRec.eof] =
      Except.ok [⟨4294967280, List.replicate 16 171⟩] ∧
    (([] : Image) ++ ([⟨4294967280, List.replicate 16 171⟩] : Image)).filter keepSeg =
      [⟨4294967280, List.replicate 16 171⟩] ∧
    (4294967280 : Nat) + (List.replicate 16 (171 : Nat)).length = 2 ^ 32 ∧
    (mergeModel "boot.hex" "sketch.hex" [rawOf HexRec.eof]
      [rawOf (HexRec.ela 65535), rawOf (HexRec.dat 65520 (List.replicate 16 171)),
        rawOf HexRec.eof] 16000000 none).la = 0 ∧
    (0 : Nat) ≠ 2 ^ 32 := by
  refine ⟨by rfl, by rfl, by rfl, by norm_num, by rfl, by norm_num⟩

theorem claim_C2_witness :
    parseHex [rawOf (HexRec.dat 0 [1, 2]), rawOf HexRec.eof] = Except.ok [⟨0, [1, 2]⟩] ∧
    parseHex [rawOf (HexRec.dat 8 [9]), rawOf HexRec.eof] = Except.ok [⟨8, [9]⟩] ∧
    (mergeModel "b" "s" [rawOf (HexRec.dat 0 [1, 2]), rawOf HexRec.eof]
      [rawOf (HexRec.dat 8 [9]), rawOf HexRec.eof] 16000000 none).ia = 0 ∧
    (mergeModel "b" "s" [rawOf (HexRec.dat 0 [1, 2]), rawOf HexRec.eof]
      [rawOf (HexRec.dat 8 [9]), rawOf HexRec.eof] 16000000 none).la = 9 ∧
    (∃ s ∈ (([⟨0, [1, 2]⟩] : Image) ++ ([⟨8, [9]⟩] : Image)).filter keepSeg,
      (mergeModel "b" "s" [rawOf (HexRec.dat 0 [1, 2]), rawOf HexRec.eof]
        [rawOf (HexRec.dat 8 [9]), rawOf HexRec.eof] 16000000 none).ia = s.addr) := by
  have h1 : parseHex [rawOf (HexRec.dat 0 [1, 2]), rawOf HexRec.eof] =
      Except.ok [⟨0, [1, 2]⟩] := by rfl
  have h2 : parseHex [rawOf (HexRec.dat 8 [9]), rawOf HexRec.eof] =
      Except.ok [⟨8, [9]⟩] := by rfl
  have h3 := claim_C2 "b" "s" _ _ 16000000 none _ _ h1 h2 (by decide)
  exact ⟨h1, h2, by rfl, by rfl, h3.1.1⟩

/-- C3: the size guard of `merge` — when the tracked occupied size exceeds
`uint32(maximumBinSize)` the function returns success with no binary output;
when the size is at most the budget (including exact equality) a binary is
produced. -/
theorem claim_C3 (bn sn : String) (braw sraw : List (List Nat)) (m : Int)
    (f : Option Nat) (B S : Image)
    (hB : parseHex braw = .ok B) (hS : parseHex sraw = .ok S) :
    (u32ofInt m < (mergeModel bn sn braw sraw m f).size →
      (mergeModel bn sn braw sraw m f).binOut = none ∧
      (mergeModel bn sn braw sraw m f).err = none) ∧
    ((mergeModel bn sn braw sraw m f).size ≤ u32ofInt m →
      (∃ bs, (mergeModel bn sn braw sraw m f).binOut = some bs) ∧
      (mergeModel bn sn braw sraw m f).err = none) := by
  rw [mergeModel_ok bn sn braw sraw m f B S hB hS]
  constructor
  · intro hgt
    rw [mergeCore_size] at hgt
    exact ⟨mergeCore_binOut_none B S m f hgt, mergeCore_err B S m f⟩
  · intro hle
    rw [mergeCore_size] at hle
    exact ⟨⟨_, mergeCore_binOut_some B S m f hle⟩, mergeCore_err B S m f⟩

theorem claim_C3_witness :
    parseHex [rawOf HexRec.eof] = Except.ok [] ∧
    (mergeModel "boot.hex" "sketch.hex" [rawOf HexRec.eof] [rawOf HexRec.eof]
      16000000 none).size ≤ u32ofInt 16000000 ∧
    (∃ bs, (mergeModel "boot.hex" "sketch.hex" [rawOf HexRec.eof] [rawOf HexRec.eof]
      16000000 none).binOut = some bs) ∧
    (mergeModel "boot.hex" "sketch.hex" [rawOf HexRec.eof] [rawOf HexRec.eof]
      16000000 none).err = none := by
  have hp : parseHex [rawOf HexRec.eof] = Except.ok [] := by rfl
  have hle : (mergeModel "boot.hex" "sketch.hex" [rawOf HexRec.eof] [rawOf HexRec.eof]
      16000000 none).size ≤ u32ofInt 16000000 := by decide
  obtain ⟨h1, h2⟩ := (claim_C3 "boot.hex" "sketch.hex" _ _ 16000000 none [] [] hp hp).2 hle
  exact ⟨hp, hle, h1, h2⟩

/-- C4 (amended): `merge` creates the merged-HEX file directly at the final
output path (`os.Create`) before serializing into it, and ignores the
serialization result: if the dump fails after `k` of the records, the final
output path holds exactly those first `k` records — a truncated artifact —
and the merge still reports success. -/
theorem claim_C4 (bn sn : String) (braw sraw : List (List Nat)) (m : Int) (k : Nat)
    (B S : Image) (hB : parseHex braw = .ok B) (hS : parseHex sraw = .ok S) :
    (mergeModel bn sn braw sraw m (some k)).hexOut =
      some ((serializeHex (mergeModel bn sn braw sraw m (some k)).img 16).take k) ∧
    (mergeModel bn sn braw sraw m (some k)).err = none := by
  rw [mergeModel_ok bn sn braw sraw m (some k) B S hB hS]
  constructor
  · rw [mergeCore_hexOut, mergeCore_img]
    rfl
  · exact mergeCore_err B S m (some k)

theorem claim_C4_cex :
    (mergeModel "boot.hex" "sketch.hex"
        [rawOf (HexRec.dat 0 (List.replicate 20 7)), rawOf HexRec.eof]
        [rawOf HexRec.eof] 16000000 (some 1)).hexOut ≠ none ∧
    (mergeModel "boot.hex" "sketch.hex"
        [rawOf (HexRec.dat 0 (List.replicate 20 7)), rawOf HexRec.eof]
        [rawOf HexRec.eof] 16000000 (some 1)).hexOut ≠
      some (serializeHex (mergeModel "boot.hex" "sketch.hex"
        [rawOf (HexRec.dat 0 (List.replicate 20 7)), rawOf HexRec.eof]
        [rawOf HexRec.eof] 16000000 (some 1)).img 16) ∧
    (serializeHex (mergeModel "boot.hex" "sketch.hex"
        [rawOf (HexRec.dat 0 (List.replicate 20 7)), rawOf HexRec.eof]
        [rawOf HexRec.eof] 16000000 (some 1)).img 16).length = 3 ∧
    (mergeModel "boot.hex" "sketch.hex"
        [rawOf (HexRec.dat 0 (List.replicate 20 7)), rawOf HexRec.eof]
        [rawOf HexRec.eof] 16000000 (some 1)).hexOut =
      some [rawOf (HexRec.dat 0 (List.replicate 16 7))] := by
  refine ⟨by decide, by decide, by rfl, by rfl⟩

theorem claim_C4_witness :
    parseHex [rawOf HexRec.eof] = Except.ok [] ∧
    (mergeModel "b" "s" [rawOf HexRec.eof] [rawOf HexRec.eof] 16000000 (some 0)).hexOut =
      some ((serializeHex (mergeModel "b" "s" [rawOf HexRec.eof] [rawOf HexRec.eof]
        16000000 (some 0)).img 16).take 0) ∧
    (mergeModel "b" "s" [rawOf HexRec.eof] [rawOf HexRec.eof] 16000000 (some 0)).err =
      none := by
  have hp : parseHex [rawOf HexRec.eof] = Except.ok [] := by rfl
  obtain ⟨h1, h2⟩ := claim_C4 "b" "s" _ _ 16000000 0 [] [] hp hp
  exact ⟨hp, h1, h2⟩

/-- C5: round-trip law — for any Image produced by `parse` and any
`bytesPerRecord` between 1 and 255, parsing the serialization yields an
Image with identical segments (same base addresses, same bytes); and the
merge engine's serialization of the merged image with 16 bytes per record
is re-parseable, the re-parsed image holding byte-for-byte the same
contents (the same byte at every address). -/
theorem claim_C5 :
    (∀ (raws : List (List Nat)) (img : Image) (n : Nat),
      parseHex raws = .ok img → 1 ≤ n → n ≤ 255 →
      parseHex (serializeHex img n) = .ok img) ∧
    (∀ (bn sn : String) (braw sraw : List (List Nat)) (m : Int) (f : Option Nat)
      (B S : Image), parseHex braw = .ok B → parseHex sraw = .ok S →
      ∃ img2,
        parseHex (serializeHex (mergeModel bn sn braw sraw m f).img 16) = .ok img2 ∧
        ∀ a, readByte img2 a = readByte (mergeModel bn sn braw sraw m f).img a) := by
  constructor
  · intro raws img n hp hn1 hn2
    obtain ⟨hg, hsep⟩ := parseHex_wf raws img hp
    rw [reparse_serialize img n hn1 hn2 hg, coalesce_sep img hsep]
  · intro bn sn braw sraw m f B S hB hS
    rw [mergeModel_ok bn sn braw sraw m f B S hB hS, mergeCore_img, mergeSt_img]
    have hg : goodImg (B.filter keepSeg ++ S.filter keepSeg) := by
      intro s hs
      rcases List.mem_append.mp hs with hs | hs
      · exact (parseHex_wf braw B hB).1 s (List.mem_of_mem_filter hs)
      · exact (parseHex_wf sraw S hS).1 s (List.mem_of_mem_filter hs)
    refine ⟨coalesce (B.filter keepSeg ++ S.filter keepSeg),
      reparse_serialize _ 16 (by norm_num) (by norm_num) hg, ?_⟩
    intro a
    exact readByte_coalesce _ a

theorem claim_C5_witness :
    parseHex [rawOf (HexRec.dat 0 [1, 2, 3]), rawOf HexRec.eof] =
      Except.ok [⟨0, [1, 2, 3]⟩] ∧
    parseHex (serializeHex [⟨0, [1, 2, 3]⟩] 16) = Except.ok [⟨0, [1, 2, 3]⟩] ∧
    (∃ img2,
      parseHex (serializeHex (mergeModel "b" "s"
        [rawOf (HexRec.dat 0 [1, 2, 3]), rawOf HexRec.eof]
        [rawOf (HexRec.dat 8 [7]), rawOf HexRec.eof] 16000000 none).img 16) =
          .ok img2 ∧
      ∀ a, readByte img2 a = readByte (mergeModel "b" "s"
        [rawOf (HexRec.dat 0 [1, 2, 3]), rawOf HexRec.eof]
        [rawOf (HexRec.dat 8 [7]), rawOf HexRec.eof] 16000000 none).img a) := by
  have h1 : parseHex [rawOf (HexRec.dat 0 [1, 2, 3]), rawOf HexRec.eof] =
      Except.ok [⟨0, [1, 2, 3]⟩] := by rfl
  have h2 : parseHex [rawOf (HexRec.dat 8 [7]), rawOf HexRec.eof] =
      Except.ok [⟨8, [7]⟩] := by rfl
  exact ⟨h1, claim_C5.1 _ _ 16 h1 (by norm_num) (by norm_num),
    claim_C5.2 "b" "s" _ _ 16000000 none _ _ h1 h2⟩

/-- C6: when the occupied size fits the budget the exported binary is a
dense byte sequence whose length is the tracked size (equal to
`occupiedRange.end - occupiedRange.start` whenever `start ≤ end`), in which
every position not covered by any segment of the merged image holds the
fill byte `0xFF` and every covered position holds the byte the merged image
assigns to that address. -/
theorem claim_C6 (bn sn : String) (braw sraw : List (List Nat)) (m : Int)
    (f : Option Nat) (B S : Image)
    (hB : parseHex braw = .ok B) (hS : parseHex sraw = .ok S)
    (hle : (mergeModel bn sn braw sraw m f).size ≤ u32ofInt m) :
    ∃ bs, (mergeModel bn sn braw sraw m f).binOut = some bs ∧
      bs.length = (mergeModel bn sn braw sraw m f).size ∧
      ((mergeModel bn sn braw sraw m f).ia ≤ (mergeModel bn sn braw sraw m f).la →
        bs.length = (mergeModel bn sn braw sraw m f).la -
          (mergeModel bn sn braw sraw m f).ia) ∧
      ∀ i, i < (mergeModel bn sn braw sraw m f).size →
        ((∀ s ∈ (mergeModel bn sn braw sraw m f).img,
            ¬(s.addr ≤ (mergeModel bn sn braw sraw m f).ia + i ∧
              (mergeModel bn sn braw sraw m f).ia + i < s.addr + s.data.length)) →
          bs[i]? = some 255) ∧
        ∀ b, readByte (mergeModel bn sn braw sraw m f).img
            ((mergeModel bn sn braw sraw m f).ia + i) = some b → bs[i]? = some b := by
  rw [mergeModel_ok bn sn braw sraw m f B S hB hS] at hle ⊢
  rw [mergeCore_size] at hle
  refine ⟨_, mergeCore_binOut_some B S m f hle, ?_, ?_, ?_⟩
  · rw [toBinary_length, mergeCore_size]
  · intro hia
    rw [mergeCore_ia, mergeCore_la] at hia
    rw [toBinary_length, mergeCore_la, mergeCore_ia]
    have h1 := mergeSt_la_lt B S
    have h2 := mergeSt_ia_le B S
    omega
  · intro i hi
    rw [mergeCore_size] at hi
    constructor
    · intro hunc
      rw [toBinary_getElem _ _ _ _ i hi]
      rw [mergeCore_img, mergeCore_ia] at hunc
      rw [readByte_none_of_uncovered _ _ hunc]
      rfl
    · intro b hb
      rw [toBinary_getElem _ _ _ _ i hi]
      rw [mergeCore_img, mergeCore_ia] at hb
      rw [hb]
      rfl

theorem claim_C6_witness :
    parseHex [rawOf (HexRec.dat 0 [1, 2]), rawOf HexRec.eof] = Except.ok [⟨0, [1, 2]⟩] ∧
    parseHex [rawOf (HexRec.dat 4 [9]), rawOf HexRec.eof] = Except.ok [⟨4, [9]⟩] ∧
    (mergeModel "b" "s" [rawOf (HexRec.dat 0 [1, 2]), rawOf HexRec.eof]
      [rawOf (HexRec.dat 4 [9]), rawOf HexRec.eof] 16000000 none).size ≤
        u32ofInt 16000000 ∧
    (∃ bs, (mergeModel "b" "s" [rawOf (HexRec.dat 0 [1, 2]), rawOf HexRec.eof]
      [rawOf (HexRec.dat 4 [9]), rawOf HexRec.eof] 16000000 none).binOut = some bs ∧
      bs.length = (mergeModel "b" "s" [rawOf (HexRec.dat 0 [1, 2]), rawOf HexRec.eof]
        [rawOf (HexRec.dat 4 [9]), rawOf HexRec.eof] 16000000 none).size) ∧
    (mergeModel "b" "s" [rawOf (HexRec.dat 0 [1, 2]), rawOf HexRec.eof]
      [rawOf (HexRec.dat 4 [9]), rawOf HexRec.eof] 16000000 none).binOut =
        some [1, 2, 255, 255, 9] := by
  have h1 : parseHex [rawOf (HexRec.dat 0 [1, 2]), rawOf HexRec.eof] =
      Except.ok [⟨0, [1, 2]⟩] := by rfl
  have h2 : parseHex [rawOf (HexRec.dat 4 [9]), rawOf HexRec.eof] =
      Except.ok [⟨4, [9]⟩] := by rfl
  have hle : (mergeModel "b" "s" [rawOf (HexRec.dat 0 [1, 2]), rawOf HexRec.eof]
      [rawOf (HexRec.dat 4 [9]), rawOf HexRec.eof] 16000000 none).size ≤
        u32ofInt 16000000 := by decide
  obtain ⟨bs, hb1, hb2, _⟩ := claim_C6 "b" "s" _ _ 16000000 none _ _ h1 h2 hle
  exact ⟨h1, h2, hle, ⟨bs, hb1, hb2⟩, by rfl⟩

/-- C7: the merged HEX path is a sibling of the program image, built by
appending `.with_bootloader.hex` to the sketch file name, but the binary
path is NOT a sibling with a `.bin` suffix: `merge` computes it as
`mergedSketchPath.Join(mergedSketchPath.Base(), ".bin")`, which nests a
directory named like the merged HEX file and a `.bin` component UNDER the
merged HEX file path. -/
theorem claim_C7 :
    mergedSketchPathOf ["build", "sketch.ino.hex"] "sketch.ino" =
      ["build", "sketch.ino.with_bootloader.hex"] ∧
    mergedBinPathOf ["build", "sketch.ino.with_bootloader.hex"] =
      ["build", "sketch.ino.with_bootloader.hex", "sketch.ino.with_bootloader.hex", ".bin"] ∧
    mergedBinPathOf ["build", "sketch.ino.with_bootloader.hex"] ≠
      ["build", "sketch.ino.with_bootloader.hex.bin"] := by
  refine ⟨by rfl, by rfl, by decide⟩

/-- C8: a parse failure on either input file aborts the merge with a single
wrapped error beginning with that file's name, and neither output file is
written. -/
theorem claim_C8 (bn sn : String) (braw sraw : List (List Nat)) (m : Int)
    (f : Option Nat) :
    (∀ e : FormatError, parseHex braw = .error e →
      (mergeModel bn sn braw sraw m f).err = some (bn ++ " " ++ errString e) ∧
      (mergeModel bn sn braw sraw m f).hexOut = none ∧
      (mergeModel bn sn braw sraw m f).binOut = none) ∧
    (∀ (B : Image) (e : FormatError), parseHex braw = .ok B → parseHex sraw = .error e →
      (mergeModel bn sn braw sraw m f).err = some (sn ++ " " ++ errString e) ∧
      (mergeModel bn sn braw sraw m f).hexOut = none ∧
      (mergeModel bn sn braw sraw m f).binOut = none) := by
  constructor
  · intro e hB
    rw [mergeModel_errBoot bn sn braw sraw m f e hB]
    exact ⟨rfl, rfl, rfl⟩
  · intro B e hB hS
    rw [mergeModel_errSketch bn sn braw sraw m f B e hB hS]
    exact ⟨rfl, rfl, rfl⟩

theorem claim_C8_witness :
    parseHex [[0, 0, 0, 1, 254]] = Except.error FormatError.badChecksum ∧
    (mergeModel "boot.hex" "sketch.hex" [[0, 0, 0, 1, 254]] [rawOf HexRec.eof]
      16000000 none).err = some ("boot.hex" ++ " " ++ errString FormatError.badChecksum) ∧
    (mergeModel "boot.hex" "sketch.hex" [[0, 0, 0, 1, 254]] [rawOf HexRec.eof]
      16000000 none).hexOut = none ∧
    (mergeModel "boot.hex" "sketch.hex" [[0, 0, 0, 1, 254]] [rawOf HexRec.eof]
      16000000 none).binOut = none := by
  have hp : parseHex [[0, 0, 0, 1, 254]] = Except.error FormatError.badChecksum := by rfl
  obtain ⟨h1, h2, h3⟩ := (claim_C8 "boot.hex" "sketch.hex" [[0, 0, 0, 1, 254]]
    [rawOf HexRec.eof] 16000000 none).1 FormatError.badChecksum hp
  exact ⟨hp, h1, h2, h3⟩

/-- C9: a rejected segment insertion is skipped without any effect — the
merge loop behaves as if only the accepted segments were present, so the
remaining segments of both images are still inserted — and the merge as a
whole never fails once both inputs have parsed. -/
theorem claim_C9 :
    (∀ (st : MergeState) (segs : List Segment),
      insertAll st (segs.filter keepSeg) = insertAll st segs) ∧
    (∀ (bn sn : String) (braw sraw : List (List Nat)) (m : Int) (f : Option Nat)
      (B S : Image), parseHex braw = .ok B → parseHex sraw = .ok S →
      (mergeModel bn sn braw sraw m f).err = none) := by
  constructor
  · exact insertAll_filter
  · intro bn sn braw sraw m f B S hB hS
    rw [mergeModel_ok bn sn braw sraw m f B S hB hS]
    exact mergeCore_err B S m f

theorem claim_C9_witness :
    insertAll ⟨[], 2 ^ 32 - 1, 0⟩ [⟨5, []⟩, ⟨0, [1]⟩] =
      insertAll ⟨[], 2 ^ 32 - 1, 0⟩ [⟨0, [1]⟩] ∧
    parseHex [rawOf HexRec.eof] = Except.ok [] ∧
    (mergeModel "b" "s" [rawOf HexRec.eof] [rawOf HexRec.eof] 16000000 none).err =
      none := by
  have hp : parseHex [rawOf HexRec.eof] = Except.ok [] := by rfl
  refine ⟨?_, hp, claim_C9.2 "b" "s" _ _ 16000000 none [] [] hp hp⟩
  have h1 := claim_C9.1 (⟨[], 2 ^ 32 - 1, 0⟩ : MergeState) [⟨5, []⟩, ⟨0, [1]⟩]
  calc insertAll ⟨[], 2 ^ 32 - 1, 0⟩ [⟨5, []⟩, ⟨0, [1]⟩]
      = insertAll ⟨[], 2 ^ 32 - 1, 0⟩ (List.filter keepSeg [⟨5, []⟩, ⟨0, [1]⟩]) := h1.symm
    _ = insertAll ⟨[], 2 ^ 32 - 1, 0⟩ [⟨0, [1]⟩] := by rfl

/-- C10: when no segment at all is inserted, the trackers keep their initial
values `initial_address = 2^32 - 1` and `last_address = 0`, the `uint32`
subtraction wraps to a size of `1`, the guard passes (for any budget of at
least one byte) and a one-byte binary holding the fill byte for address
`0xFFFFFFFF` is produced instead of the export being skipped. -/
theorem claim_C10 (bn sn : String) (braw sraw : List (List Nat)) (m : Int)
    (f : Option Nat) (B S : Image)
    (hB : parseHex braw = .ok B) (hS : parseHex sraw = .ok S)
    (hnone : (B ++ S).filter keepSeg = []) (hm : 1 ≤ u32ofInt m) :
    (mergeModel bn sn braw sraw m f).ia = 2 ^ 32 - 1 ∧
    (mergeModel bn sn braw sraw m f).la = 0 ∧
    (mergeModel bn sn braw sraw m f).size = 1 ∧
    (mergeModel bn sn braw sraw m f).binOut = some [255] ∧
    (mergeModel bn sn braw sraw m f).err = none := by
  rw [mergeModel_ok bn sn braw sraw m f B S hB hS]
  have hst : mergeSt B S = ⟨[], 2 ^ 32 - 1, 0⟩ := by
    rw [mergeSt_eq_insertAll, ← insertAll_filter, hnone]
    rfl
  have hsz : ((mergeSt B S).la + 2 ^ 32 - (mergeSt B S).ia) % 2 ^ 32 = 1 := by
    rw [hst]
    rfl
  have hle : ((mergeSt B S).la + 2 ^ 32 - (mergeSt B S).ia) % 2 ^ 32 ≤ u32ofInt m := by
    omega
  refine ⟨?_, ?_, ?_, ?_, mergeCore_err B S m f⟩
  · rw [mergeCore_ia, hst]
  · rw [mergeCore_la, hst]
  · rw [mergeCore_size, hsz]
  · rw [mergeCore_binOut_some B S m f hle, hsz, hst]
    rfl

theorem claim_C10_witness :
    parseHex [rawOf HexRec.eof] = Except.ok [] ∧
    (([] : Image) ++ ([] : Image)).filter keepSeg = [] ∧
    (1 : Nat) ≤ u32ofInt 16000000 ∧
    (mergeModel "b" "s" [rawOf HexRec.eof] [rawOf HexRec.eof] 16000000 none).ia =
      2 ^ 32 - 1 ∧
    (mergeModel "b" "s" [rawOf HexRec.eof] [rawOf HexRec.eof] 16000000 none).la = 0 ∧
    (mergeModel "b" "s" [rawOf HexRec.eof] [rawOf HexRec.eof] 16000000 none).size = 1 ∧
    (mergeModel "b" "s" [rawOf HexRec.eof] [rawOf HexRec.eof] 16000000 none).binOut =
      some [255] := by
  have hp : parseHex [rawOf HexRec.eof] = Except.ok [] := by rfl
  have hm : (1 : Nat) ≤ u32ofInt 16000000 := by decide
  obtain ⟨h1, h2, h3, h4, _⟩ :=
    claim_C10 "b" "s" _ _ 16000000 none [] [] hp hp (by rfl) hm
  exact ⟨hp, by rfl, hm, h1, h2, h3, h4⟩

end HexMerge
